import Mathlib

/-!
Shallow embedding of the hh.ru ingestion / query project (src/src/*.py) and
proofs about its claims.

The relational store (tables `companies` and `vacancies`) is embedded as lists
of rows with a surrogate-id counter; the SQL queries of `db_manager.py` are
embedded as list programs whose `ORDER BY` is a stable insertion sort; the
loader functions of `loader.py` become pure state transformers; the paginated
fetch loop of `hh_api.py` becomes a fuel-indexed recursion on the remaining
page budget.
-/

set_option maxHeartbeats 1000000

namespace HH

/-! ### Stable insertion sort, modelling SQL ORDER BY -/

def insertLe (le : α → α → Bool) (x : α) : List α → List α
  | [] => [x]
  | y :: ys => if le x y then x :: y :: ys else y :: insertLe le x ys

def isort (le : α → α → Bool) : List α → List α
  | [] => []
  | x :: xs => insertLe le x (isort le xs)

theorem mem_insertLe {le : α → α → Bool} {x a : α} {l : List α} :
    a ∈ insertLe le x l ↔ a = x ∨ a ∈ l := by
  induction l with
  | nil => simp [insertLe]
  | cons y ys ih =>
    by_cases h : le x y
    · simp [insertLe, h]
    · simp [insertLe, h, ih]
      tauto

theorem perm_insertLe (le : α → α → Bool) (x : α) (l : List α) :
    List.Perm (insertLe le x l) (x :: l) := by
  induction l with
  | nil => exact List.Perm.refl _
  | cons y ys ih =>
    by_cases h : le x y
    · simp [insertLe, h]
    · simp only [insertLe, h, if_neg, Bool.false_eq_true, ite_false]
      exact (ih.cons y).trans (List.Perm.swap x y ys)

theorem perm_isort (le : α → α → Bool) (l : List α) : List.Perm (isort le l) l := by
  induction l with
  | nil => exact List.Perm.refl _
  | cons x xs ih => exact (perm_insertLe le x (isort le xs)).trans (ih.cons x)

theorem mem_isort {le : α → α → Bool} {a : α} {l : List α} :
    a ∈ isort le l ↔ a ∈ l :=
  (perm_isort le l).mem_iff

theorem insertLe_of_forall_le {le : α → α → Bool} {x : α} {l : List α}
    (h : ∀ z ∈ l, le x z = true) : insertLe le x l = x :: l := by
  cases l with
  | nil => rfl
  | cons y ys => simp [insertLe, h y (List.mem_cons_self y ys)]

theorem sorted_insertLe {le : α → α → Bool}
    (htot : ∀ a b, le a b = true ∨ le b a = true)
    (htrans : ∀ a b c, le a b = true → le b c = true → le a c = true)
    {x : α} {l : List α} (h : List.Pairwise (fun a b => le a b = true) l) :
    List.Pairwise (fun a b => le a b = true) (insertLe le x l) := by
  induction l with
  | nil => simp [insertLe]
  | cons y ys ih =>
    rcases List.pairwise_cons.1 h with ⟨hy, hys⟩
    by_cases hxy : le x y
    · simp only [insertLe, hxy, ite_true]
      refine List.pairwise_cons.2 ⟨?_, h⟩
      intro z hz
      rcases List.mem_cons.1 hz with rfl | hz
      · exact hxy
      · exact htrans x y z hxy (hy z hz)
    · simp only [insertLe, hxy, Bool.false_eq_true, ite_false]
      refine List.pairwise_cons.2 ⟨?_, ih hys⟩
      intro z hz
      rcases mem_insertLe.1 hz with rfl | hz
      · rcases htot y z with hyz | hzy
        · exact hyz
        · exact absurd hzy (by simpa using hxy)
      · exact hy z hz

theorem sorted_isort {le : α → α → Bool}
    (htot : ∀ a b, le a b = true ∨ le b a = true)
    (htrans : ∀ a b c, le a b = true → le b c = true → le a c = true)
    (l : List α) : List.Pairwise (fun a b => le a b = true) (isort le l) := by
  induction l with
  | nil => simp [isort]
  | cons x xs ih => exact sorted_insertLe htot htrans ih

theorem filter_insertLe {le : α → α → Bool}
    (htrans : ∀ a b c, le a b = true → le b c = true → le a c = true)
    (p : α → Bool) {x : α} {l : List α}
    (hs : List.Pairwise (fun a b => le a b = true) l) :
    List.filter p (insertLe le x l) =
      if p x then insertLe le x (List.filter p l) else List.filter p l := by
  induction l with
  | nil => by_cases hp : p x <;> simp [insertLe, List.filter, hp]
  | cons y ys ih =>
    rcases List.pairwise_cons.1 hs with ⟨hy, hys⟩
    by_cases hxy : le x y
    · by_cases hp : p x
      · by_cases hpy : p y
        · simp [insertLe, hxy, List.filter_cons, hp, hpy]
        · have hall : ∀ z ∈ List.filter p ys, le x z = true := by
            intro z hz
            exact htrans x y z hxy (hy z (List.mem_of_mem_filter hz))
          simp [insertLe, hxy, List.filter_cons, hp, hpy, insertLe_of_forall_le hall]
      · simp [insertLe, hxy, List.filter_cons, hp]
    · have hrec := ih hys
      by_cases hpy : p y
      · by_cases hp : p x
        · simp only [insertLe, hxy, Bool.false_eq_true, ite_false, List.filter_cons, hpy,
            ite_true, hp] at hrec ⊢
          rw [hrec]
        · simp only [insertLe, hxy, Bool.false_eq_true, ite_false, List.filter_cons, hpy,
            ite_true, hp] at hrec ⊢
          rw [hrec]
      · simp only [insertLe, hxy, Bool.false_eq_true, ite_false, List.filter_cons, hpy] at hrec ⊢
        exact hrec

theorem isort_filter {le : α → α → Bool}
    (htot : ∀ a b, le a b = true ∨ le b a = true)
    (htrans : ∀ a b c, le a b = true → le b c = true → le a c = true)
    (p : α → Bool) (l : List α) :
    isort le (List.filter p l) = List.filter p (isort le l) := by
  induction l with
  | nil => rfl
  | cons x xs ih =>
    rw [List.filter_cons]
    by_cases hp : p x
    · simp only [hp, ite_true, isort, ih,
        filter_insertLe htrans p (sorted_isort htot htrans xs)]
    · simp only [hp, Bool.false_eq_true, ite_false, isort, ih,
        filter_insertLe htrans p (sorted_isort htot htrans xs)]

theorem isort_filter_sublist {le : α → α → Bool}
    (htot : ∀ a b, le a b = true ∨ le b a = true)
    (htrans : ∀ a b c, le a b = true → le b c = true → le a c = true)
    (p : α → Bool) (l : List α) :
    List.Sublist (isort le (List.filter p l)) (isort le l) := by
  rw [isort_filter htot htrans p l]
  exact List.filter_sublist _

/-! ### Computable lexicographic order on strings

SQL `ORDER BY` on text columns is modelled as lexicographic comparison of the
strings' character sequences.  The comparison is written as a structurally
recursive boolean function so that concrete query results evaluate inside the
kernel. -/

def strLtL : List Char → List Char → Bool
  | [], [] => false
  | [], _ :: _ => true
  | _ :: _, [] => false
  | a :: as, b :: bs => if a < b then true else if b < a then false else strLtL as bs

def strLeL (s t : List Char) : Bool := !(strLtL t s)

theorem strLtL_irrefl (s : List Char) : strLtL s s = false := by
  induction s with
  | nil => rfl
  | cons a as ih => simp [strLtL, lt_irrefl, ih]

theorem strLtL_asymm : ∀ {s t : List Char}, strLtL s t = true → strLtL t s = false := by
  intro s
  induction s with
  | nil =>
    intro t h
    cases t with
    | nil => cases h
    | cons b bs => rfl
  | cons a as ih =>
    intro t h
    cases t with
    | nil => cases h
    | cons b bs =>
      by_cases hab : a < b
      · simp [strLtL, asymm hab, hab]
      · by_cases hba : b < a
        · simp [strLtL, hab, hba] at h
        · simp [strLtL, hab, hba] at h ⊢
          exact ih h

theorem strLtL_trans :
    ∀ {s t u : List Char}, strLtL s t = true → strLtL t u = true → strLtL s u = true := by
  intro s
  induction s with
  | nil =>
    intro t u h1 h2
    cases t with
    | nil => cases h1
    | cons b bs =>
      cases u with
      | nil => cases h2
      | cons c cs => rfl
  | cons a as ih =>
    intro t u h1 h2
    cases t with
    | nil => cases h1
    | cons b bs =>
      cases u with
      | nil => cases h2
      | cons c cs =>
        by_cases hab : a < b
        · by_cases hbc : b < c
          · simp [strLtL, lt_trans hab hbc]
          · by_cases hcb : c < b
            · simp [strLtL, hbc, hcb] at h2
            · have e : b = c := le_antisymm (not_lt.1 hcb) (not_lt.1 hbc)
              subst e
              simp [strLtL, hab]
        · by_cases hba : b < a
          · simp [strLtL, hab, hba] at h1
          · have e : a = b := le_antisymm (not_lt.1 hba) (not_lt.1 hab)
            subst e
            by_cases hbc : a < c
            · simp [strLtL, hbc]
            · by_cases hcb : c < a
              · simp [strLtL, hbc, hcb] at h2
              · have e2 : a = c := le_antisymm (not_lt.1 hcb) (not_lt.1 hbc)
                subst e2
                simp [strLtL, lt_irrefl] at h1 h2 ⊢
                exact ih h1 h2

theorem eq_of_strLtL_false :
    ∀ {s t : List Char}, strLtL s t = false → strLtL t s = false → s = t := by
  intro s
  induction s with
  | nil =>
    intro t h1 _
    cases t with
    | nil => rfl
    | cons b bs => cases h1
  | cons a as ih =>
    intro t h1 h2
    cases t with
    | nil => cases h2
    | cons b bs =>
      by_cases hab : a < b
      · simp [strLtL, hab] at h1
      · by_cases hba : b < a
        · simp [strLtL, hba, hab] at h2
        · have e : a = b := le_antisymm (not_lt.1 hba) (not_lt.1 hab)
          subst e
          simp [strLtL, lt_irrefl] at h1 h2
          rw [ih h1 h2]

theorem strLeL_total (s t : List Char) : strLeL s t = true ∨ strLeL t s = true := by
  unfold strLeL
  by_cases h : strLtL t s = true
  · right
    simp [strLtL_asymm h]
  · left
    simp only [Bool.not_eq_true] at h
    simp [h]

theorem strLeL_trans {s t u : List Char}
    (h1 : strLeL s t = true) (h2 : strLeL t u = true) : strLeL s u = true := by
  unfold strLeL at h1 h2 ⊢
  simp only [Bool.not_eq_true'] at h1 h2 ⊢
  cases hst : strLtL s t with
  | true =>
    by_cases hus : strLtL u s = true
    · exact absurd (strLtL_trans hus hst) (by simp [h2])
    · simpa using hus
  | false =>
    have e : s = t := eq_of_strLtL_false hst h1
    subst e
    exact h2

theorem strLeL_refl (s : List Char) : strLeL s s = true := by
  unfold strLeL
  simp [strLtL_irrefl]

/-! ### Keyed tables with surrogate ids

A table row carries a surrogate id (SERIAL primary key), the external hh.ru
key (column `hh_id`, UNIQUE) and the remaining columns as a payload.  The SQL
`INSERT ... ON CONFLICT (hh_id) DO UPDATE SET <all mutable columns>` used by
`upsert_companies` / `insert_vacancies` in `loader.py` becomes `upsertRow`:
update the payload in place on a key hit, else append a fresh row. -/

structure KRow (β : Type) where
  id : Nat
  key : Int
  payload : β
  deriving DecidableEq, Repr

structure KTable (β : Type) where
  rows : List (KRow β)
  next : Nat
  deriving DecidableEq, Repr

def hasKey (t : KTable β) (k : Int) : Bool :=
  t.rows.any (fun a => a.key == k)

def upsertRow (k : Int) (p : β) (t : KTable β) : KTable β :=
  if hasKey t k then
    ⟨t.rows.map (fun a => if a.key == k then ⟨a.id, a.key, p⟩ else a), t.next⟩
  else
    ⟨t.rows ++ [⟨t.next, k, p⟩], t.next + 1⟩

def upsertBatch (rs : List (Int × β)) (t : KTable β) : KTable β :=
  rs.foldl (fun t r => upsertRow r.1 r.2 t) t

/-- Payload of the last row of the batch that carries key `k`, if any
(`ON CONFLICT DO UPDATE` leaves the last write for a key in place). -/
def lastPayload (k : Int) : List (Int × β) → Option β
  | [] => none
  | r :: rs =>
    match lastPayload k rs with
    | some p => some p
    | none => if r.1 == k then some r.2 else none

/-- Row override by the last batch entry with the row's key. -/
def ovLast (rs : List (Int × β)) (a : KRow β) : KRow β :=
  match lastPayload a.key rs with
  | some p => ⟨a.id, a.key, p⟩
  | none => a

theorem hasKey_mapUpdate (k j : Int) (p : β) (rows : List (KRow β)) (n : Nat) :
    hasKey ⟨rows.map (fun a => if a.key == k then ⟨a.id, a.key, p⟩ else a), n⟩ j
      = hasKey (⟨rows, n⟩ : KTable β) j := by
  simp only [hasKey, List.any_map]
  apply congrArg
  funext a
  by_cases hak : a.key == k <;> simp [Function.comp, hak]

theorem hasKey_upsertRow (k : Int) (p : β) (t : KTable β) (j : Int) :
    hasKey (upsertRow k p t) j = (hasKey t j || (j == k)) := by
  obtain ⟨rows, n⟩ := t
  by_cases h : hasKey ⟨rows, n⟩ k
  · rw [upsertRow, if_pos h, hasKey_mapUpdate]
    by_cases hj : j = k
    · subst hj
      simp [h]
    · have hjk : (j == k) = false := by simpa using hj
      rw [hjk, Bool.or_false]
  · rw [upsertRow, if_neg h]
    simp only [hasKey, List.any_append, List.any_cons, List.any_nil, Bool.or_false]
    by_cases hj : j = k
    · subst hj
      simp
    · have hjk : (j == k) = false := by simpa using hj
      have hkj : (k == j) = false := by simpa using Ne.symm hj
      rw [hjk, hkj]

theorem upsertBatch_nil (t : KTable β) : upsertBatch [] t = t := rfl

theorem upsertBatch_cons (r : Int × β) (rs : List (Int × β)) (t : KTable β) :
    upsertBatch (r :: rs) t = upsertBatch rs (upsertRow r.1 r.2 t) := rfl

theorem hasKey_upsertBatch_mono {rs : List (Int × β)} {t : KTable β} {j : Int}
    (h : hasKey t j = true) : hasKey (upsertBatch rs t) j = true := by
  induction rs generalizing t with
  | nil => exact h
  | cons r rs ih =>
    rw [upsertBatch_cons]
    exact ih (by rw [hasKey_upsertRow]; simp [h])

theorem hasKey_upsertBatch_mem {rs : List (Int × β)} {t : KTable β} {k : Int} {p : β}
    (h : (k, p) ∈ rs) : hasKey (upsertBatch rs t) k = true := by
  induction rs generalizing t with
  | nil => cases h
  | cons r rs ih =>
    rw [upsertBatch_cons]
    rcases List.mem_cons.1 h with heq | h'
    · have : r.1 = k := by rw [← heq]
      subst this
      exact hasKey_upsertBatch_mono (by rw [hasKey_upsertRow]; simp)
    · exact ih h'

theorem ovLast_comp (r : Int × β) (rs : List (Int × β)) (a : KRow β) :
    ovLast rs (if a.key == r.1 then ⟨a.id, a.key, r.2⟩ else a) = ovLast (r :: rs) a := by
  by_cases hak : a.key = r.1
  · have hb : (a.key == r.1) = true := by simpa using hak
    have hra : (r.1 == a.key) = true := by simpa using hak.symm
    simp only [hb, ite_true]
    cases hlp : lastPayload a.key rs with
    | some p => simp [ovLast, lastPayload, hlp]
    | none => simp [ovLast, lastPayload, hlp, hra]
  · have hb : (a.key == r.1) = false := by simpa using hak
    have hra : (r.1 == a.key) = false := by simpa using fun h => hak h.symm
    simp only [hb, Bool.false_eq_true, ite_false]
    cases hlp : lastPayload a.key rs with
    | some p => simp [ovLast, lastPayload, hlp]
    | none => simp [ovLast, lastPayload, hlp, hra]

theorem upsertBatch_of_allPresent {rs : List (Int × β)} {t : KTable β}
    (h : ∀ r ∈ rs, hasKey t r.1 = true) :
    upsertBatch rs t = ⟨t.rows.map (ovLast rs), t.next⟩ := by
  induction rs generalizing t with
  | nil =>
    have : ∀ a : KRow β, ovLast ([] : List (Int × β)) a = a := fun a => rfl
    simp only [upsertBatch_nil, this, List.map_id]
    exact (funext this ▸ by simp)
  | cons r rs ih =>
    obtain ⟨rows, n⟩ := t
    have hr : hasKey ⟨rows, n⟩ r.1 = true := h r (List.mem_cons_self _ _)
    rw [upsertBatch_cons, upsertRow, if_pos hr]
    dsimp only
    have hall2 : ∀ q ∈ rs,
        hasKey ⟨rows.map (fun a => if a.key == r.1 then ⟨a.id, a.key, r.2⟩ else a), n⟩ q.1
          = true := by
      intro q hq
      rw [hasKey_mapUpdate]
      exact h q (List.mem_cons_of_mem _ hq)
    rw [ih hall2]
    dsimp only
    simp only [List.map_map]
    have hfun :
        (ovLast rs ∘ fun a : KRow β => if a.key == r.1 then ⟨a.id, a.key, r.2⟩ else a)
          = ovLast (r :: rs) := by
      funext a
      simp only [Function.comp]
      exact ovLast_comp r rs a
    rw [hfun]

theorem mem_rows_upsertBatch_of_lastPayload_none {rs : List (Int × β)} {k : Int}
    (hlp : lastPayload k rs = none) :
    ∀ {t : KTable β}, ∀ a ∈ (upsertBatch rs t).rows, a.key = k → a ∈ t.rows := by
  induction rs with
  | nil => intro t a ha _; exact ha
  | cons r rs ih =>
    have h1 : lastPayload k rs = none := by
      revert hlp
      simp only [lastPayload]
      cases lastPayload k rs <;> simp
    have h2 : (r.1 == k) = false := by
      revert hlp
      simp only [lastPayload, h1]
      by_cases h : r.1 == k <;> simp [h]
    intro t a ha hak
    rw [upsertBatch_cons] at ha
    have ha' := ih h1 a ha hak
    revert ha'
    rw [upsertRow]
    by_cases hp : hasKey t r.1
    · rw [if_pos hp]
      intro ha'
      rcases List.mem_map.1 ha' with ⟨b, hb, hba⟩
      by_cases hbk : b.key == r.1
      · exfalso
        rw [if_pos hbk] at hba
        have hab : a.key = b.key := by rw [← hba]
        have hbk' : b.key = r.1 := by simpa using hbk
        have h2' : r.1 ≠ k := by simpa using h2
        exact h2' (by rw [← hbk', ← hab]; exact hak)
      · rw [if_neg hbk] at hba
        exact hba ▸ hb
    · rw [if_neg hp]
      intro ha'
      rcases List.mem_append.1 ha' with hm | hm
      · exact hm
      · exfalso
        rcases List.mem_singleton.1 hm with rfl
        have h2' : r.1 ≠ k := by simpa using h2
        exact h2' hak

theorem payload_upsertRow_of_key {k : Int} {p : β} {t : KTable β} :
    ∀ a ∈ (upsertRow k p t).rows, a.key = k → a.payload = p := by
  intro a ha hak
  revert ha
  rw [upsertRow]
  by_cases hp : hasKey t k
  · rw [if_pos hp]
    intro ha
    rcases List.mem_map.1 ha with ⟨b, hb, hba⟩
    by_cases hbk : b.key == k
    · rw [if_pos hbk] at hba
      rw [← hba]
    · exfalso
      rw [if_neg hbk] at hba
      rw [beq_iff_eq] at hbk
      exact hbk (by rw [← hba] at hak; exact hak)
  · rw [if_neg hp]
    intro ha
    rcases List.mem_append.1 ha with hm | hm
    · exfalso
      have : hasKey t k = true :=
        List.any_eq_true.2 ⟨a, hm, by simpa using hak⟩
      exact hp this
    · rcases List.mem_singleton.1 hm with rfl
      rfl

theorem payload_upsertBatch_last {rs : List (Int × β)} {p : β} :
    ∀ {t : KTable β}, ∀ a ∈ (upsertBatch rs t).rows,
      lastPayload a.key rs = some p → a.payload = p := by
  induction rs with
  | nil => intro t a _ h; cases h
  | cons r rs ih =>
    intro t a ha hlp
    rw [upsertBatch_cons] at ha
    revert hlp
    simp only [lastPayload]
    cases h1 : lastPayload a.key rs with
    | some q =>
      intro hq
      cases hq
      exact ih a ha h1
    | none =>
      by_cases h2 : r.1 == a.key
      · simp only [h2, ite_true]
        intro hq
        cases hq
        have hmem : a ∈ (upsertRow r.1 r.2 t).rows :=
          mem_rows_upsertBatch_of_lastPayload_none h1 a ha rfl
        have hkey : a.key = r.1 := by
          rw [beq_iff_eq] at h2
          exact h2.symm
        exact payload_upsertRow_of_key a hmem hkey
      · simp only [h2, Bool.false_eq_true, ite_false]
        intro hq
        cases hq

theorem map_eq_self_of_mem {l : List α} {f : α → α} (h : ∀ a ∈ l, f a = a) :
    l.map f = l := by
  induction l with
  | nil => rfl
  | cons x xs ih =>
    simp only [List.map_cons, h x (List.mem_cons_self x xs),
      ih (fun a ha => h a (List.mem_cons_of_mem _ ha))]

/-- Applying the same upsert batch twice leaves the table exactly as after one
application. -/
theorem upsertBatch_idem (rs : List (Int × β)) (t : KTable β) :
    upsertBatch rs (upsertBatch rs t) = upsertBatch rs t := by
  have hall : ∀ r ∈ rs, hasKey (upsertBatch rs t) r.1 = true := by
    intro r hr
    exact hasKey_upsertBatch_mem (k := r.1) (p := r.2) (by simpa using hr)
  rw [upsertBatch_of_allPresent hall]
  have hid : ∀ a ∈ (upsertBatch rs t).rows, ovLast rs a = a := by
    intro a ha
    unfold ovLast
    cases h : lastPayload a.key rs with
    | none => rfl
    | some p =>
      have hp := payload_upsertBatch_last a ha h
      cases a
      simp_all
  rw [map_eq_self_of_mem hid]

/-! ### Timestamps

`loader.py` feeds `value.replace("Z", "+00:00")` to `datetime.fromisoformat`.
The replacement is translated literally below (`replaceZ`). -/

structure PDateTime where
  year : Nat
  month : Nat
  day : Nat
  hour : Nat
  minute : Nat
  second : Nat
  microsecond : Nat
  offsetMinutes : Option Int
  deriving DecidableEq, Repr

def isIsoChar (c : Char) : Bool :=
  c.isDigit || c == '-' || c == ':' || c == '+' || c == '.' || c == 'T'

def digitsToNat (cs : List Char) : Nat :=
  cs.foldl (fun acc c => acc * 10 + (c.toNat - '0'.toNat)) 0

def takeDigits (n : Nat) (s : List Char) : Option (Nat × List Char) :=
  let pre := s.take n
  if (pre.length == n) && pre.all Char.isDigit then some (digitsToNat pre, s.drop n)
  else none

def expectChar (c : Char) : List Char → Option (List Char)
  | [] => none
  | d :: rest => if d == c then some rest else none

def parseTimePart (s : List Char) : Option (Nat × Nat × Nat × Nat × List Char) :=
  match takeDigits 2 s with
  | none => none
  | some (h, s1) =>
  match expectChar ':' s1 with
  | none => none
  | some s2 =>
  match takeDigits 2 s2 with
  | none => none
  | some (mi, s3) =>
  match s3 with
  | ':' :: s4 =>
    (match takeDigits 2 s4 with
     | none => none
     | some (sec, s5) =>
       match s5 with
       | '.' :: s6 =>
         (let ds := s6.takeWhile Char.isDigit
          if 1 ≤ ds.length ∧ ds.length ≤ 6 then
            some (h, mi, sec, digitsToNat ds * 10 ^ (6 - ds.length), s6.drop ds.length)
          else none)
       | _ => some (h, mi, sec, 0, s5))
  | _ => some (h, mi, 0, 0, s3)

def parseOffsetMag (s : List Char) : Option (Nat × List Char) :=
  match takeDigits 2 s with
  | none => none
  | some (oh, s1) =>
  match expectChar ':' s1 with
  | none => none
  | some s2 =>
  match takeDigits 2 s2 with
  | none => none
  | some (om, s3) => if oh ≤ 23 ∧ om ≤ 59 then some (oh * 60 + om, s3) else none

def parseOffsetPart (s : List Char) : Option (Option Int × List Char) :=
  match s with
  | [] => some (none, [])
  | '+' :: s1 =>
    (match parseOffsetMag s1 with
     | none => none
     | some (m, rest) => some (some (m : Int), rest))
  | '-' :: s1 =>
    (match parseOffsetMag s1 with
     | none => none
     | some (m, rest) => some (some (-(m : Int)), rest))
  | _ => none

/-- Modelled from the spec: the repository delegates timestamp parsing to the
Python standard library (`datetime.fromisoformat`), which is not part of the
source tree; this parser realises the spec's words "parse as an ISO-8601
timestamp" (extended format `YYYY-MM-DD[THH:MM[:SS[.f{1..6}]]][±HH:MM]`).
Inputs containing any character outside the ISO-8601 alphabet are rejected. -/
def parseCore (s : List Char) : Option PDateTime :=
  match takeDigits 4 s with
  | none => none
  | some (y, s1) =>
  match expectChar '-' s1 with
  | none => none
  | some s2 =>
  match takeDigits 2 s2 with
  | none => none
  | some (mo, s3) =>
  match expectChar '-' s3 with
  | none => none
  | some s4 =>
  match takeDigits 2 s4 with
  | none => none
  | some (d, s5) =>
  if 1 ≤ mo ∧ mo ≤ 12 ∧ 1 ≤ d ∧ d ≤ 31 then
    match s5 with
    | [] => some ⟨y, mo, d, 0, 0, 0, 0, none⟩
    | 'T' :: s6 =>
      (match parseTimePart s6 with
       | none => none
       | some (h, mi, sec, us, s7) =>
         if h ≤ 23 ∧ mi ≤ 59 ∧ sec ≤ 59 then
           match parseOffsetPart s7 with
           | none => none
           | some (off, rest) =>
             if rest.isEmpty then some ⟨y, mo, d, h, mi, sec, us, off⟩ else none
         else none)
    | _ => none
  else none

def isoParse (s : List Char) : Option PDateTime :=
  if s.all isIsoChar then parseCore s else none

/-- Replacement string for a literal `Z`, i.e. Python's `"+00:00"`. -/
def zrepl : List Char := ['+', '0', '0', ':', '0', '0']

/-- Translation of `value.replace("Z", "+00:00")`: every occurrence of `Z`
anywhere in the string is replaced. -/
def replaceZ : List Char → List Char
  | [] => []
  | c :: rest => if c == 'Z' then zrepl ++ replaceZ rest else c :: replaceZ rest

/-- Translation of `loader._parse_published_at` (`src/src/loader.py`); absent
and empty inputs are falsy in Python, and a `ValueError` from the parser is
caught and turned into `None`, so the embedding is a total function into
`Option`. -/
def parse_published_at (value : Option (List Char)) : Option PDateTime :=
  match value with
  | none => none
  | some v => if v.isEmpty then none else isoParse (replaceZ v)

/-- The spec's transformation: only a trailing literal `Z` suffix is treated
as the UTC offset `+00:00`. -/
def specTransform (v : List Char) : List Char :=
  if v.getLast? = some 'Z' then v.dropLast ++ zrepl else v

/-! ### The relational store (`db_setup.py` schema) and views -/

structure CompanyData where
  name : String
  url : Option String
  deriving DecidableEq, Repr

structure VacData where
  company_id : Nat
  title : String
  salary_from : Option Int
  salary_to : Option Int
  salary_currency : Option String
  alternate_url : Option String
  published_at : Option PDateTime
  deriving DecidableEq, Repr

structure DB where
  companies : KTable CompanyData
  vacancies : KTable VacData
  deriving DecidableEq, Repr

/-- Translation of `db_manager.VacancyView`. -/
structure VacancyView where
  company_name : String
  vacancy_title : String
  salary_from : Option Int
  salary_to : Option Int
  currency : Option String
  url : Option String
  deriving DecidableEq, Repr

/-! ### Query layer (`db_manager.py`) -/

/-- The CASE expression shared by `get_avg_salary` and
`get_vacancies_with_higher_salary`: branches in SQL source order. -/
def caseSalary : Option Int → Option Int → Option ℚ
  | some f, some t => some (((f : ℚ) + (t : ℚ)) / 2)
  | some f, none => some ((f : ℚ))
  | none, some t => some ((t : ℚ))
  | none, none => none

def definedSalaries (db : DB) : List ℚ :=
  db.vacancies.rows.filterMap (fun v => caseSalary v.payload.salary_from v.payload.salary_to)

/-- Translation of `DBManager.get_avg_salary`: SQL `AVG` ignores NULL inputs
and is NULL when no row contributes. -/
def get_avg_salary (db : DB) : Option ℚ :=
  let vals := definedSalaries db
  if vals.isEmpty then none else some (vals.sum / (vals.length : ℚ))

def viewOf (c : KRow CompanyData) (v : KRow VacData) : VacancyView :=
  ⟨c.payload.name, v.payload.title, v.payload.salary_from, v.payload.salary_to,
   v.payload.salary_currency, v.payload.alternate_url⟩

/-- The inner join `vacancies v JOIN companies c ON c.id = v.company_id`. -/
def joinRows (db : DB) : List VacancyView :=
  db.vacancies.rows.flatMap (fun v =>
    (db.companies.rows.filter (fun c => c.id == v.payload.company_id)).map
      (fun c => viewOf c v))

/-- The `ORDER BY c.name, v.title` comparison. -/
def viewLe (a b : VacancyView) : Bool :=
  strLtL a.company_name.data b.company_name.data ||
    (a.company_name.data == b.company_name.data &&
      strLeL a.vacancy_title.data b.vacancy_title.data)

/-- Translation of `DBManager.get_all_vacancies`. -/
def get_all_vacancies (db : DB) : List VacancyView :=
  isort viewLe (joinRows db)

def aboveAvgPred (avg : ℚ) (r : VacancyView) : Bool :=
  match caseSalary r.salary_from r.salary_to with
  | some s => decide (avg < s)
  | none => false

/-- Translation of `DBManager.get_vacancies_with_higher_salary`: the CTE `s`
computes the same average as `get_avg_salary`; a NULL average or a NULL
computed salary makes the `>` comparison unknown, excluding the row. -/
def get_vacancies_with_higher_salary (db : DB) : List VacancyView :=
  match get_avg_salary db with
  | none => []
  | some avg => isort viewLe ((joinRows db).filter (aboveAvgPred avg))

/-- Tokens of a Postgres `LIKE`/`ILIKE` pattern: `%` matches any sequence,
`_` any single character, backslash escapes the next pattern character, and
a trailing lone backslash makes the pattern invalid (it matches nothing;
Postgres raises an error for it). -/
inductive LikeTok where
  | pct
  | uscore
  | lit (c : Char)
  | bad
  deriving DecidableEq, Repr

def likeLex : List Char → List LikeTok
  | [] => []
  | c :: ps =>
    if c == '%' then .pct :: likeLex ps
    else if c == '_' then .uscore :: likeLex ps
    else if c == '\\' then
      match ps with
      | [] => [.bad]
      | c2 :: ps2 => .lit c2 :: likeLex ps2
    else .lit c :: likeLex ps

def likeTokMatch : List LikeTok → List Char → Bool
  | [], s => s.isEmpty
  | .pct :: ps, s => s.tails.any (fun s2 => likeTokMatch ps s2)
  | .uscore :: ps, s =>
    match s with
    | [] => false
    | _ :: s2 => likeTokMatch ps s2
  | .lit c :: ps, s =>
    match s with
    | [] => false
    | d :: s2 => (c.toLower == d.toLower) && likeTokMatch ps s2
  | .bad :: _, _ => false

/-- Postgres `LIKE`/`ILIKE` pattern matching over lower-cased characters. -/
def likeMatch (pattern s : List Char) : Bool := likeTokMatch (likeLex pattern) s

/-- Translation of `DBManager.get_vacancies_with_keyword`: the SQL pattern is
the f-string interpolation of the keyword between two `%`. -/
def get_vacancies_with_keyword (db : DB) (keyword : List Char) : List VacancyView :=
  isort viewLe ((joinRows db).filter
    (fun r => likeMatch ('%' :: (keyword ++ ['%'])) r.vacancy_title.data))

/-- The `ORDER BY count DESC, c.name` comparison. -/
def cntNameLe (a b : String × Nat) : Bool :=
  decide (b.2 < a.2) || (a.2 == b.2 && strLeL a.1.data b.1.data)

/-- One company's rows in
`companies c LEFT JOIN vacancies v ON v.company_id = c.id`: a company without
matches contributes one row with a NULL vacancy side. -/
def leftJoinBlock (db : DB) (c : KRow CompanyData) :
    List (KRow CompanyData × Option (KRow VacData)) :=
  match db.vacancies.rows.filter (fun v => v.payload.company_id == c.id) with
  | [] => [(c, none)]
  | vs => vs.map (fun v => (c, some v))

/-- Rows of the LEFT JOIN. -/
def leftJoinRows (db : DB) : List (KRow CompanyData × Option (KRow VacData)) :=
  db.companies.rows.flatMap (leftJoinBlock db)

/-- The `GROUP BY c.name` groups: one group per distinct company name. -/
def groupNames (db : DB) : List String :=
  ((leftJoinRows db).map (fun r => r.1.payload.name)).dedup

/-- SQL `COUNT(v.id)` over one name group: counts the join rows whose vacancy
side is non-NULL. -/
def nameCount (db : DB) (n : String) : Nat :=
  ((leftJoinRows db).filter (fun r => r.1.payload.name == n)).countP (fun r => r.2.isSome)

/-- Translation of `DBManager.get_companies_and_vacancies_count`. -/
def get_companies_and_vacancies_count (db : DB) : List (String × Nat) :=
  isort cntNameLe ((groupNames db).map (fun n => (n, nameCount db n)))

/-! ### Loader (`loader.py`) -/

structure RawSalary where
  salFrom : Option Int
  salTo : Option Int
  currency : Option String
  deriving DecidableEq, Repr

/-- Translation of `loader._parse_salary`; a missing or empty (falsy) salary
object yields the all-null triple. -/
def parse_salary : Option RawSalary → Option Int × Option Int × Option String
  | none => (none, none, none)
  | some s => (s.salFrom, s.salTo, s.currency)

structure RawEmployerRef where
  id : Option Int
  deriving DecidableEq, Repr

structure RawVacancy where
  id : Int
  employer : Option RawEmployerRef
  name : Option String
  salary : Option RawSalary
  alternate_url : Option String
  published_at : Option (List Char)
  deriving DecidableEq, Repr

structure RawEmployer where
  id : Int
  name : Option String
  alternate_url : Option String
  url : Option String
  deriving DecidableEq, Repr

/-- Python's `a or b` on optional strings: an absent or empty left operand is
falsy and selects the right operand. -/
def pyOrStr : Option String → Option String → Option String
  | some s, b => if s.isEmpty then b else some s
  | none, b => b

def companyRowOf (e : RawEmployer) : Int × CompanyData :=
  (e.id, ⟨e.name.getD "", pyOrStr e.alternate_url e.url⟩)

/-- Translation of `loader.upsert_companies`: maps each employer payload to a
row and applies one `INSERT ... ON CONFLICT (hh_id) DO UPDATE` batch; an
empty batch issues no write. -/
def upsert_companies (employers : List RawEmployer) (db : DB) : DB :=
  let rows := employers.map companyRowOf
  if rows.isEmpty then db else { db with companies := upsertBatch rows db.companies }

/-- The dict comprehension `{hh_id: id for (id, hh_id) in companies}`: for a
duplicated key the later row wins. -/
def companyLookup (cs : List (KRow CompanyData)) (k : Int) : Option Nat :=
  (cs.reverse.find? (fun c => c.key == k)).map (fun c => c.id)

/-- The two skip conditions of the `insert_vacancies` loop: a missing
`employer.id` or an employer id absent from the company mapping. -/
def resolveCompany (cs : List (KRow CompanyData)) (vac : RawVacancy) : Option Nat :=
  match vac.employer with
  | none => none
  | some emp =>
    match emp.id with
    | none => none
    | some k => companyLookup cs k

/-- The row built for one vacancy by the `insert_vacancies` loop, or `none`
when the loop `continue`s past it. -/
def vacRowOf (cs : List (KRow CompanyData)) (vac : RawVacancy) : Option (Int × VacData) :=
  match resolveCompany cs vac with
  | none => none
  | some cid =>
    let sal := parse_salary vac.salary
    some (vac.id,
      ⟨cid, vac.name.getD "", sal.1, sal.2.1, sal.2.2, vac.alternate_url,
       parse_published_at vac.published_at⟩)

/-- Translation of `loader.insert_vacancies`. -/
def insert_vacancies (vacancies : List RawVacancy) (db : DB) : DB :=
  let rows := vacancies.filterMap (vacRowOf db.companies.rows)
  if rows.isEmpty then db else { db with vacancies := upsertBatch rows db.vacancies }

/-! ### Upstream API (`hh_api.py`) and the orchestrator -/

inductive UpstreamError
  | httpError
  deriving DecidableEq, Repr

structure EmployerSeed where
  hh_id : Int
  note : String
  deriving DecidableEq, Repr

structure PageResp (α : Type) where
  items : List α
  pages : Nat

/-- The `for page in range(max_pages)` loop of
`HeadHunterAPI.get_vacancies_by_employer`, indexed by the remaining page
budget (`max_pages - page`); the `break` fires when `page + 1 >= pages`. -/
def fetchFrom (resp : Nat → PageResp α) : Nat → Nat → List α
  | 0, _ => []
  | r + 1, page =>
    let d := resp page
    d.items ++ (if d.pages ≤ page + 1 then [] else fetchFrom resp r (page + 1))

def get_vacancies_by_employer (resp : Nat → PageResp α) (max_pages : Nat) : List α :=
  fetchFrom resp max_pages 0

/-- The spec's stated termination condition at page `p`. -/
def stopCond (resp : Nat → PageResp α) (max_pages p : Nat) : Prop :=
  max_pages ≤ p + 1 ∨ (resp p).pages ≤ p + 1

/-- First page index at which the loop stops, by fuel-indexed search. -/
def firstStopFrom (resp : Nat → PageResp α) (max_pages : Nat) : Nat → Nat → Nat
  | 0, p => p
  | r + 1, p =>
    if max_pages ≤ p + 1 ∨ (resp p).pages ≤ p + 1 then p
    else firstStopFrom resp max_pages r (p + 1)

/-- Python `dict.get` over a finite key-value list. -/
def dictGet (d : List (String × γ)) (k : String) : Option γ :=
  (d.find? (fun e => e.1 == k)).map (fun e => e.2)

/-- Translation of `HeadHunterAPI.search_employers` applied to a decoded
response body: it reads the key `"itmems"` with default `[]`. -/
def search_employers (body : List (String × List γ)) : List γ :=
  (dictGet body "itmems").getD []

/-- The employer list comprehension of `load_hh_data_to_db`: sequential
fetches, the first `UpstreamError` propagates. -/
def fetchEmployersList (api : Int → Except UpstreamError RawEmployer) :
    List EmployerSeed → Except UpstreamError (List RawEmployer)
  | [] => Except.ok []
  | s :: rest =>
    match api s.hh_id with
    | Except.error e => Except.error e
    | Except.ok emp =>
      match fetchEmployersList api rest with
      | Except.error e => Except.error e
      | Except.ok emps => Except.ok (emp :: emps)

/-- The per-seed vacancy fetch loop of `load_hh_data_to_db`. -/
def fetchVacanciesLists (api : Int → Except UpstreamError (List RawVacancy)) :
    List EmployerSeed → Except UpstreamError (List RawVacancy)
  | [] => Except.ok []
  | s :: rest =>
    match api s.hh_id with
    | Except.error e => Except.error e
    | Except.ok vs =>
      match fetchVacanciesLists api rest with
      | Except.error e => Except.error e
      | Except.ok rest2 => Except.ok (vs ++ rest2)

/-- Translation of `loader.load_hh_data_to_db`: the result is the persisted
store state paired with the raised error, if any.  An error during the
employer comprehension propagates before `upsert_companies` runs; an error
during the vacancy loop propagates after companies were written but before
`insert_vacancies` runs. -/
def load_hh_data_to_db (apiEmp : Int → Except UpstreamError RawEmployer)
    (apiVac : Int → Except UpstreamError (List RawVacancy))
    (seeds : List EmployerSeed) (db : DB) : DB × Option UpstreamError :=
  match fetchEmployersList apiEmp seeds with
  | Except.error e => (db, some e)
  | Except.ok emps =>
    let db1 := upsert_companies emps db
    match fetchVacanciesLists apiVac seeds with
    | Except.error e => (db1, some e)
    | Except.ok allVacs => (insert_vacancies allVacs db1, none)

/-! ### Claim C1 -/

/-- Spec-side computed salary (spec §3): if both bounds are present it is
their exact arithmetic mean, if only one is present it is that bound, and
with neither it is undefined. -/
def computedSalarySpec (sf st2 : Option Int) : Option ℚ :=
  if h1 : sf.isSome then
    if h2 : st2.isSome then some ((((sf.get h1 : Int) : ℚ) + ((st2.get h2 : Int) : ℚ)) / 2)
    else some (((sf.get h1 : Int) : ℚ))
  else if h2 : st2.isSome then some (((st2.get h2 : Int) : ℚ))
  else none

/-- Spec-side average (spec §4.4): the arithmetic mean of the computed-salary
value across postings with a defined computed salary, absent when no posting
qualifies. -/
def averageSalarySpec (db : DB) : Option ℚ :=
  let qualifying := db.vacancies.rows.filterMap
    (fun v => computedSalarySpec v.payload.salary_from v.payload.salary_to)
  if qualifying.length = 0 then none
  else some (qualifying.sum / (qualifying.length : ℚ))

theorem caseSalary_eq_spec (a b : Option Int) : caseSalary a b = computedSalarySpec a b := by
  cases a <;> cases b <;> rfl

/-- C1: the computed salary of a posting is a deterministic function of
(salary_from, salary_to) — both present gives the exact (rational, not
integer-truncated) arithmetic mean, one present gives that bound, neither
gives undefined — and `get_avg_salary` returns the arithmetic mean of this
value over exactly the postings whose computed salary is defined, returning
`none` when no posting qualifies. -/
theorem claim1_computed_salary_and_average :
    (∀ f t : Int, caseSalary (some f) (some t) = some (((f : ℚ) + (t : ℚ)) / 2)) ∧
    (∀ f : Int, caseSalary (some f) none = some ((f : ℚ))) ∧
    (∀ t : Int, caseSalary none (some t) = some ((t : ℚ))) ∧
    caseSalary none none = none ∧
    (∀ db : DB, get_avg_salary db = averageSalarySpec db) := by
  refine ⟨fun f t => rfl, fun f => rfl, fun t => rfl, rfl, fun db => ?_⟩
  unfold get_avg_salary averageSalarySpec definedSalaries
  have hfun : (fun v : KRow VacData => caseSalary v.payload.salary_from v.payload.salary_to)
      = (fun v : KRow VacData => computedSalarySpec v.payload.salary_from v.payload.salary_to) := by
    funext v
    exact caseSalary_eq_spec _ _
  rw [hfun]
  generalize (db.vacancies.rows.filterMap
    (fun v => computedSalarySpec v.payload.salary_from v.payload.salary_to)) = l
  cases l <;> simp

/-! ### Claim C4 -/

theorem vacRowOf_none_of_unresolved {cs : List (KRow CompanyData)} {vac : RawVacancy}
    (h : resolveCompany cs vac = none) : vacRowOf cs vac = none := by
  unfold vacRowOf
  rw [h]

theorem vacRowOf_some {cs : List (KRow CompanyData)} {vac : RawVacancy} {cid : Nat}
    (h : resolveCompany cs vac = some cid) :
    vacRowOf cs vac = some (vac.id,
      ⟨cid, vac.name.getD "", (parse_salary vac.salary).1, (parse_salary vac.salary).2.1,
       (parse_salary vac.salary).2.2, vac.alternate_url,
       parse_published_at vac.published_at⟩) := by
  unfold vacRowOf
  rw [h]

theorem filterMap_vacRowOf_filter_resolvable (cs : List (KRow CompanyData))
    (l : List RawVacancy) :
    (l.filter (fun v => (resolveCompany cs v).isSome)).filterMap (vacRowOf cs)
      = l.filterMap (vacRowOf cs) := by
  induction l with
  | nil => rfl
  | cons v l ih =>
    by_cases h : (resolveCompany cs v).isSome
    · simp only [List.filter_cons, h, ite_true, List.filterMap_cons, ih]
    · have hres : resolveCompany cs v = none := by
        cases hr : resolveCompany cs v
        · rfl
        · rw [hr] at h
          simp at h
      have hrow := vacRowOf_none_of_unresolved hres
      simp only [List.filter_cons, hres, Option.isSome_none, Bool.false_eq_true, ite_false,
        List.filterMap_cons, hrow, ih]

/-- C4: a posting whose employer external id does not resolve to a stored
company is skipped entirely — its row is `none`, the rest of the batch is
processed as if the posting were absent (the run continues; the embedding is
total, so nothing is raised) — and every row that is persisted carries a
`company_id` belonging to a stored company, so no dangling reference is ever
written. -/
theorem claim4_orphan_postings_skipped (db : DB) (vacancies : List RawVacancy) :
    (∀ vac : RawVacancy, resolveCompany db.companies.rows vac = none →
       vacRowOf db.companies.rows vac = none) ∧
    insert_vacancies vacancies db =
      insert_vacancies
        (vacancies.filter (fun vac => (resolveCompany db.companies.rows vac).isSome)) db ∧
    (∀ r ∈ vacancies.filterMap (vacRowOf db.companies.rows),
       ∃ c ∈ db.companies.rows, c.id = r.2.company_id) := by
  refine ⟨fun vac h => vacRowOf_none_of_unresolved h, ?_, ?_⟩
  · unfold insert_vacancies
    rw [filterMap_vacRowOf_filter_resolvable]
  · intro r hr
    rcases List.mem_filterMap.1 hr with ⟨vac, _, hv⟩
    cases hres : resolveCompany db.companies.rows vac with
    | none =>
      rw [vacRowOf_none_of_unresolved hres] at hv
      cases hv
    | some cid =>
      have hv2 : some (vac.id,
          (⟨cid, vac.name.getD "", (parse_salary vac.salary).1,
            (parse_salary vac.salary).2.1, (parse_salary vac.salary).2.2,
            vac.alternate_url, parse_published_at vac.published_at⟩ : VacData)) = some r :=
        (vacRowOf_some hres).symm.trans hv
      have hreq := Option.some.inj hv2
      have hr2 : r.2.company_id = cid := by rw [← hreq]
      unfold resolveCompany at hres
      cases hemp : vac.employer with
      | none =>
        simp only [hemp] at hres
        cases hres
      | some emp =>
        simp only [hemp] at hres
        cases hid : emp.id with
        | none =>
          simp only [hid] at hres
          cases hres
        | some k =>
          simp only [hid] at hres
          unfold companyLookup at hres
          rcases Option.map_eq_some'.1 hres with ⟨c, hfind, hcid⟩
          refine ⟨c, ?_, by rw [hcid, hr2]⟩
          exact (List.mem_reverse).1 (List.mem_of_find?_eq_some hfind)

theorem claim4_witness :
    resolveCompany (([] : List (KRow CompanyData)))
        ⟨500, some ⟨some 42⟩, some "Dev", none, none, none⟩ = none ∧
    vacRowOf (([] : List (KRow CompanyData)))
        ⟨500, some ⟨some 42⟩, some "Dev", none, none, none⟩ = none :=
  ⟨rfl, (claim4_orphan_postings_skipped ⟨⟨[], 1⟩, ⟨[], 1⟩⟩ []).1
      ⟨500, some ⟨some 42⟩, some "Dev", none, none, none⟩ rfl⟩

/-! ### Claim C7 -/

/-- C7: `upsert_companies` and `insert_vacancies` are idempotent — for every
store state and every input batch, applying the operation twice with
identical input yields exactly the same store (same rows, counts and field
values) as applying it once. -/
theorem claim7_upserts_idempotent (db : DB) (employers : List RawEmployer)
    (vacancies : List RawVacancy) :
    upsert_companies employers (upsert_companies employers db)
        = upsert_companies employers db ∧
    insert_vacancies vacancies (insert_vacancies vacancies db)
        = insert_vacancies vacancies db := by
  obtain ⟨cs, vs⟩ := db
  constructor
  · unfold upsert_companies
    by_cases h : (employers.map companyRowOf).isEmpty
    · simp [h]
    · simp only [h, Bool.false_eq_true, ite_false]
      rw [upsertBatch_idem]
  · unfold insert_vacancies
    dsimp only
    by_cases h : (vacancies.filterMap (vacRowOf cs.rows)).isEmpty
    · simp [h]
    · simp only [h, Bool.false_eq_true, ite_false]
      rw [upsertBatch_idem]

/-! ### Claim C9 -/

theorem fetchEmployersList_error_of_mem
    {api : Int → Except UpstreamError RawEmployer} {seeds : List EmployerSeed}
    (h : ∃ s ∈ seeds, ∃ e, api s.hh_id = Except.error e) :
    ∃ e, fetchEmployersList api seeds = Except.error e := by
  induction seeds with
  | nil =>
    rcases h with ⟨s, hs, _⟩
    cases hs
  | cons s rest ih =>
    rcases h with ⟨s2, hs2, e, he⟩
    rcases List.mem_cons.1 hs2 with rfl | hmem
    · refine ⟨e, ?_⟩
      unfold fetchEmployersList
      rw [he]
    · cases ha : api s.hh_id with
      | error e2 =>
        refine ⟨e2, ?_⟩
        unfold fetchEmployersList
        rw [ha]
      | ok emp =>
        rcases ih ⟨s2, hmem, e, he⟩ with ⟨e2, he2⟩
        refine ⟨e2, ?_⟩
        unfold fetchEmployersList
        rw [ha, he2]

/-- C9: if fetching any seed employer yields an `UpstreamError` during the
employer-fetch comprehension, the run aborts with that error before any
company write is issued — the returned store is exactly the input store. -/
theorem claim9_employer_fetch_error_aborts_before_write
    (apiEmp : Int → Except UpstreamError RawEmployer)
    (apiVac : Int → Except UpstreamError (List RawVacancy))
    (seeds : List EmployerSeed) (db : DB)
    (h : ∃ s ∈ seeds, ∃ e, apiEmp s.hh_id = Except.error e) :
    ∃ e, load_hh_data_to_db apiEmp apiVac seeds db = (db, some e) := by
  rcases fetchEmployersList_error_of_mem h with ⟨e, he⟩
  refine ⟨e, ?_⟩
  unfold load_hh_data_to_db
  rw [he]

theorem claim9_witness :
    ∃ e, load_hh_data_to_db (fun _ => Except.error UpstreamError.httpError)
        (fun _ => Except.ok []) [⟨1, "seed"⟩] ⟨⟨[], 1⟩, ⟨[], 1⟩⟩
      = (⟨⟨[], 1⟩, ⟨[], 1⟩⟩, some e) :=
  claim9_employer_fetch_error_aborts_before_write _ _ _ _
    ⟨⟨1, "seed"⟩, List.mem_singleton.2 rfl, UpstreamError.httpError, rfl⟩

/-! ### Claim C10 -/

/-- C10: for every decoded response body that contains an `"items"` key but
no `"itmems"` key, `search_employers` returns the empty list regardless of
the employers contained under `"items"` (the implementation reads the
misspelled key `"itmems"` with default `[]`). -/
theorem claim10_search_employers_misspelled_key (γ : Type)
    (body : List (String × List γ))
    (hno : dictGet body "itmems" = none)
    (_hyes : (dictGet body "items").isSome = true) :
    search_employers body = [] := by
  unfold search_employers
  rw [hno]
  rfl

theorem claim10_witness :
    dictGet [("items", [(5 : Nat)])] "itmems" = none ∧
    (dictGet [("items", [(5 : Nat)])] "items").isSome = true ∧
    search_employers [("items", [(5 : Nat)])] = [] :=
  ⟨by decide, by decide,
    claim10_search_employers_misspelled_key Nat [("items", [5])] (by decide) (by decide)⟩

/-! ### Claim C5 -/

theorem isoParse_no_Z {s : List Char} {t : PDateTime} (h : isoParse s = some t) :
    'Z' ∉ s := by
  intro hmem
  unfold isoParse at h
  by_cases hall : s.all isIsoChar
  · have hz := List.all_eq_true.1 hall 'Z' hmem
    exact absurd hz (by decide)
  · rw [if_neg hall] at h
    cases h

theorem replaceZ_append (u v : List Char) :
    replaceZ (u ++ v) = replaceZ u ++ replaceZ v := by
  induction u with
  | nil => rfl
  | cons c u ih =>
    by_cases h : c == 'Z' <;> simp [replaceZ, h, ih, List.append_assoc]

theorem replaceZ_of_not_mem {w : List Char} (h : 'Z' ∉ w) : replaceZ w = w := by
  induction w with
  | nil => rfl
  | cons c w ih =>
    have hc : ¬ c = 'Z' := fun hcz => h (hcz ▸ List.mem_cons_self c w)
    have hcb : (c == 'Z') = false := by simpa using hc
    have hw : 'Z' ∉ w := fun hm => h (List.mem_cons_of_mem c hm)
    simp [replaceZ, hcb, ih hw]

/-- C5: `parse_published_at` never raises (it is a total function into
`Option`): absent input yields `none`; an input whose trailing literal `Z`
suffix, treated as the UTC offset `+00:00`, parses as a valid ISO-8601
timestamp yields that timestamp; and an input that fails to parse yields
`none` instead of aborting. -/
theorem claim5_parse_published_at :
    parse_published_at none = none ∧
    (∀ v t, isoParse (specTransform v) = some t → parse_published_at (some v) = some t) ∧
    (∀ v, isoParse (replaceZ v) = none → parse_published_at (some v) = none) := by
  refine ⟨rfl, ?_, ?_⟩
  · intro v t h
    have hnz : 'Z' ∉ specTransform v := isoParse_no_Z h
    unfold specTransform at h hnz
    by_cases hlast : v.getLast? = some 'Z'
    · rw [if_pos hlast] at h hnz
      have hne : v ≠ [] := by
        intro hv
        rw [hv] at hlast
        cases hlast
      have hgl : v.getLast hne = 'Z' := by
        have := List.getLast?_eq_getLast v hne
        rw [hlast] at this
        exact (Option.some.inj this).symm
      have hvdec : v.dropLast ++ ['Z'] = v := by
        have := List.dropLast_append_getLast hne
        rwa [hgl] at this
      have hnd : 'Z' ∉ v.dropLast := fun hm => hnz (List.mem_append_left _ hm)
      have hrz : replaceZ v = v.dropLast ++ zrepl := by
        conv_lhs => rw [← hvdec]
        rw [replaceZ_append, replaceZ_of_not_mem hnd]
        rfl
      have hvne : v.isEmpty = false := by
        cases v
        · exact absurd rfl hne
        · rfl
      simp only [parse_published_at, hvne, Bool.false_eq_true, ite_false, hrz]
      exact h
    · rw [if_neg hlast] at h hnz
      have hrz : replaceZ v = v := replaceZ_of_not_mem hnz
      cases hv : v with
      | nil =>
        have hnil : isoParse ([] : List Char) = none := rfl
        rw [hv, hnil] at h
        cases h
      | cons c w =>
        simp only [parse_published_at, List.isEmpty_cons, Bool.false_eq_true, ite_false]
        rw [← hv, hrz]
        exact h
  · intro v h
    unfold parse_published_at
    by_cases he : v.isEmpty <;> simp [he, h]

theorem claim5_witness :
    parse_published_at (some ("2024-01-15T10:30:00Z".data)) =
      some ⟨2024, 1, 15, 10, 30, 0, 0, some 0⟩ :=
  claim5_parse_published_at.2.1 ("2024-01-15T10:30:00Z".data)
    ⟨2024, 1, 15, 10, 30, 0, 0, some 0⟩ (by decide)

/-! ### Claim C8 -/

theorem fetchFrom_spec (resp : Nat → PageResp α) (max_pages : Nat) :
    ∀ r p, p + r = max_pages → 1 ≤ r →
      (∀ j, p ≤ j → j < firstStopFrom resp max_pages r p → ¬ stopCond resp max_pages j) ∧
      stopCond resp max_pages (firstStopFrom resp max_pages r p) ∧
      p ≤ firstStopFrom resp max_pages r p ∧
      firstStopFrom resp max_pages r p < max_pages ∧
      fetchFrom resp r p =
        (List.range' p (firstStopFrom resp max_pages r p + 1 - p)).flatMap
          (fun j => (resp j).items) := by
  intro r
  induction r with
  | zero =>
    intro p _ h1
    omega
  | succ r ih =>
    intro p hpr _
    by_cases hstop : max_pages ≤ p + 1 ∨ (resp p).pages ≤ p + 1
    · have hfs : firstStopFrom resp max_pages (r + 1) p = p := by
        unfold firstStopFrom
        rw [if_pos hstop]
      rw [hfs]
      have hlt : p < max_pages := by omega
      refine ⟨fun j h1 h2 => by omega, hstop, le_refl p, hlt, ?_⟩
      have hr1 : p + 1 - p = 1 := by omega
      rw [hr1]
      by_cases hpg : (resp p).pages ≤ p + 1
      · simp [fetchFrom, hpg, List.range'_succ]
      · have hr0 : r = 0 := by
          rcases hstop with hm | hp2
          · omega
          · exact absurd hp2 hpg
        subst hr0
        simp [fetchFrom, hpg, List.range'_succ]
    · push_neg at hstop
      obtain ⟨hm, hpg⟩ := hstop
      have hfs : firstStopFrom resp max_pages (r + 1) p
          = firstStopFrom resp max_pages r (p + 1) := by
        conv_lhs => rw [firstStopFrom]
        rw [if_neg (by push_neg; exact ⟨hm, hpg⟩)]
      have hr1 : 1 ≤ r := by omega
      obtain ⟨ih1, ih2, ih3, ih4, ih5⟩ := ih (p + 1) (by omega) hr1
      rw [hfs]
      refine ⟨?_, ih2, by omega, ih4, ?_⟩
      · intro j hj1 hj2
        by_cases hjp : j = p
        · subst hjp
          intro hc
          rcases hc with hc | hc
          · omega
          · omega
        · exact ih1 j (by omega) hj2
      · have hunf : fetchFrom resp (r + 1) p = (resp p).items ++ fetchFrom resp r (p + 1) := by
          have hifn : ¬ (resp p).pages ≤ p + 1 := by omega
          simp [fetchFrom, hifn]
        rw [hunf, ih5]
        have hk1 : firstStopFrom resp max_pages r (p + 1) + 1 - p
            = (firstStopFrom resp max_pages r (p + 1) + 1 - (p + 1)) + 1 := by omega
        rw [hk1, List.range'_succ]
        simp [List.flatMap_cons]

/-- C8: for every `max_pages >= 1` and every family of page responses, the
fetch loop requests pages sequentially from page 0, terminates exactly at the
first page where `page + 1 >= reported pages` or `page + 1 = max_pages`, and
returns the concatenation of the fetched pages' items in request order. -/
theorem claim8_pagination (α : Type) (resp : Nat → PageResp α) (max_pages : Nat)
    (h : 1 ≤ max_pages) :
    (∀ j, j < firstStopFrom resp max_pages max_pages 0 → ¬ stopCond resp max_pages j) ∧
    stopCond resp max_pages (firstStopFrom resp max_pages max_pages 0) ∧
    firstStopFrom resp max_pages max_pages 0 < max_pages ∧
    get_vacancies_by_employer resp max_pages =
      (List.range (firstStopFrom resp max_pages max_pages 0 + 1)).flatMap
        (fun j => (resp j).items) := by
  obtain ⟨h1, h2, _h3, h4, h5⟩ := fetchFrom_spec resp max_pages max_pages 0 (by omega) h
  refine ⟨fun j hj => h1 j (Nat.zero_le j) hj, h2, h4, ?_⟩
  rw [List.range_eq_range']
  unfold get_vacancies_by_employer
  rw [h5]
  simp

def resp0 : Nat → PageResp Nat :=
  fun p => if p = 0 then ⟨[1, 2], 3⟩ else if p = 1 then ⟨[3], 3⟩ else ⟨[9], 3⟩

theorem claim8_witness :
    (∀ j, j < firstStopFrom resp0 3 3 0 → ¬ stopCond resp0 3 j) ∧
    stopCond resp0 3 (firstStopFrom resp0 3 3 0) ∧
    firstStopFrom resp0 3 3 0 < 3 ∧
    get_vacancies_by_employer resp0 3 =
      (List.range (firstStopFrom resp0 3 3 0 + 1)).flatMap (fun j => (resp0 j).items) :=
  claim8_pagination Nat resp0 3 (by decide)

/-! ### Claim C2 -/

theorem viewLe_total : ∀ a b : VacancyView, viewLe a b = true ∨ viewLe b a = true := by
  intro a b
  simp only [viewLe, Bool.or_eq_true, Bool.and_eq_true, beq_iff_eq]
  by_cases h1 : strLtL a.company_name.data b.company_name.data = true
  · left
    left
    exact h1
  · by_cases h2 : strLtL b.company_name.data a.company_name.data = true
    · right
      left
      exact h2
    · simp only [Bool.not_eq_true] at h1 h2
      have e := eq_of_strLtL_false h1 h2
      rcases strLeL_total a.vacancy_title.data b.vacancy_title.data with ht | ht
      · left
        right
        exact ⟨e, ht⟩
      · right
        right
        exact ⟨e.symm, ht⟩

theorem viewLe_trans :
    ∀ a b c : VacancyView, viewLe a b = true → viewLe b c = true → viewLe a c = true := by
  intro a b c
  simp only [viewLe, Bool.or_eq_true, Bool.and_eq_true, beq_iff_eq]
  rintro (h1 | ⟨h1, h1t⟩) (h2 | ⟨h2, h2t⟩)
  · left
    exact strLtL_trans h1 h2
  · left
    exact h2 ▸ h1
  · left
    exact h1 ▸ h2
  · right
    exact ⟨h1.trans h2, strLeL_trans h1t h2t⟩

/-- C2: every posting returned by `get_vacancies_with_higher_salary` has a
defined computed salary (by the same four-branch CASE rule) that is strictly
greater than the value `get_avg_salary` returns on the same state, a posting
with an undefined computed salary is never returned, and the result is a
sublist of `get_all_vacancies` — a subset in the same
(company name, title) ordering. -/
theorem claim2_above_average (db : DB) :
    (∀ r ∈ get_vacancies_with_higher_salary db,
       ∃ a s, get_avg_salary db = some a ∧
         caseSalary r.salary_from r.salary_to = some s ∧ a < s) ∧
    List.Sublist (get_vacancies_with_higher_salary db) (get_all_vacancies db) := by
  constructor
  · intro r hr
    unfold get_vacancies_with_higher_salary at hr
    cases havg : get_avg_salary db with
    | none =>
      simp only [havg] at hr
      cases hr
    | some avg =>
      simp only [havg] at hr
      have hmem := mem_isort.1 hr
      have hfil := (List.mem_filter.1 hmem).2
      unfold aboveAvgPred at hfil
      cases hcs : caseSalary r.salary_from r.salary_to with
      | none =>
        simp only [hcs] at hfil
        cases hfil
      | some s =>
        simp only [hcs] at hfil
        exact ⟨avg, s, rfl, rfl, by simpa using hfil⟩
  · unfold get_vacancies_with_higher_salary get_all_vacancies
    cases havg : get_avg_salary db with
    | none => exact List.nil_sublist _
    | some avg => exact isort_filter_sublist viewLe_total viewLe_trans _ _

/-- A two-posting store: computed salaries 100 and 300, average 200. -/
def dbW : DB :=
  ⟨⟨[⟨1, 10, ⟨"Acme", none⟩⟩], 2⟩,
   ⟨[⟨1, 100, ⟨1, "Dev", some 100, none, none, none, none⟩⟩,
     ⟨2, 101, ⟨1, "Ops", none, some 300, none, none, none⟩⟩], 3⟩⟩

theorem claim2_witness :
    (∃ a s, get_avg_salary dbW = some a ∧
       caseSalary (⟨"Acme", "Ops", none, some 300, none, none⟩ : VacancyView).salary_from
         (⟨"Acme", "Ops", none, some 300, none, none⟩ : VacancyView).salary_to = some s ∧
       a < s) ∧
    List.Sublist (get_vacancies_with_higher_salary dbW) (get_all_vacancies dbW) := by
  refine ⟨(claim2_above_average dbW).1 ⟨"Acme", "Ops", none, some 300, none, none⟩ ?_,
    (claim2_above_average dbW).2⟩
  have havg : get_avg_salary dbW = some 200 := by
    have hds : definedSalaries dbW = [(100 : ℚ), 300] := by
      simp [definedSalaries, dbW, caseSalary, List.filterMap_cons]
    simp only [get_avg_salary, hds]
    norm_num
  have hjoin : joinRows dbW =
      [⟨"Acme", "Dev", some 100, none, none, none⟩,
       ⟨"Acme", "Ops", none, some 300, none, none⟩] := by decide
  have hp1 : aboveAvgPred 200 (⟨"Acme", "Dev", some 100, none, none, none⟩ : VacancyView)
      = false := by
    norm_num [aboveAvgPred, caseSalary]
  have hp2 : aboveAvgPred 200 (⟨"Acme", "Ops", none, some 300, none, none⟩ : VacancyView)
      = true := by
    norm_num [aboveAvgPred, caseSalary]
  simp only [get_vacancies_with_higher_salary, havg, hjoin, List.filter_cons, hp1, hp2,
    Bool.false_eq_true, ite_false, ite_true, List.filter_nil, isort, insertLe]
  exact List.mem_singleton.2 rfl

/-! ### Claim C3 -/

theorem cntNameLe_total : ∀ a b : String × Nat, cntNameLe a b = true ∨ cntNameLe b a = true := by
  intro a b
  simp only [cntNameLe, Bool.or_eq_true, Bool.and_eq_true, beq_iff_eq, decide_eq_true_eq]
  rcases Nat.lt_trichotomy a.2 b.2 with h | h | h
  · right
    left
    exact h
  · rcases strLeL_total a.1.data b.1.data with h2 | h2
    · left
      right
      exact ⟨h, h2⟩
    · right
      right
      exact ⟨h.symm, h2⟩
  · left
    left
    exact h

theorem cntNameLe_trans :
    ∀ a b c : String × Nat,
      cntNameLe a b = true → cntNameLe b c = true → cntNameLe a c = true := by
  intro a b c
  simp only [cntNameLe, Bool.or_eq_true, Bool.and_eq_true, beq_iff_eq, decide_eq_true_eq]
  rintro (h1 | ⟨h1, h1t⟩) (h2 | ⟨h2, h2t⟩)
  · left
    omega
  · left
    omega
  · left
    omega
  · right
    exact ⟨by omega, strLeL_trans h1t h2t⟩

theorem fst_of_mem_leftJoinBlock {db : DB} {c : KRow CompanyData}
    {r : KRow CompanyData × Option (KRow VacData)} (hr : r ∈ leftJoinBlock db c) :
    r.1 = c := by
  unfold leftJoinBlock at hr
  revert hr
  cases hfl : db.vacancies.rows.filter (fun v => v.payload.company_id == c.id) with
  | nil =>
    intro hr
    rcases List.mem_singleton.1 hr with rfl
    rfl
  | cons v vs =>
    intro hr
    rcases List.mem_map.1 hr with ⟨v2, _, rfl⟩
    rfl

theorem exists_mem_leftJoinBlock (db : DB) (c : KRow CompanyData) :
    ∃ o, (c, o) ∈ leftJoinBlock db c := by
  unfold leftJoinBlock
  cases hfl : db.vacancies.rows.filter (fun v => v.payload.company_id == c.id) with
  | nil => exact ⟨none, List.mem_singleton.2 rfl⟩
  | cons v vs => exact ⟨some v, List.mem_map.2 ⟨v, List.mem_cons_self v vs, rfl⟩⟩

theorem countP_isSome_leftJoinBlock (db : DB) (c : KRow CompanyData) :
    (leftJoinBlock db c).countP (fun r => r.2.isSome)
      = (db.vacancies.rows.filter (fun v => v.payload.company_id == c.id)).length := by
  unfold leftJoinBlock
  cases hfl : db.vacancies.rows.filter (fun v => v.payload.company_id == c.id) with
  | nil => rfl
  | cons v vs =>
    rw [List.countP_map]
    have hconst : ((fun r : KRow CompanyData × Option (KRow VacData) => r.2.isSome)
        ∘ (fun v : KRow VacData => (c, some v))) = fun _ => true := by
      funext v2
      rfl
    rw [hconst, List.countP_true]

theorem filter_name_leftJoinBlock (db : DB) (c : KRow CompanyData) (n : String) :
    (leftJoinBlock db c).filter (fun r => r.1.payload.name == n)
      = if c.payload.name == n then leftJoinBlock db c else [] := by
  by_cases h : (c.payload.name == n) = true
  · rw [if_pos h]
    apply List.filter_eq_self.2
    intro r hr
    have he := fst_of_mem_leftJoinBlock hr
    simp [he, h]
  · rw [if_neg h]
    apply List.filter_eq_nil_iff.2
    intro r hr
    have he := fst_of_mem_leftJoinBlock hr
    simp [he, h]

theorem nameCount_aux (db : DB) (n : String) (cs : List (KRow CompanyData)) :
    ((cs.flatMap (leftJoinBlock db)).filter (fun r => r.1.payload.name == n)).countP
        (fun r => r.2.isSome)
      = ((cs.filter (fun c => c.payload.name == n)).map
          (fun c => (db.vacancies.rows.filter
            (fun v => v.payload.company_id == c.id)).length)).sum := by
  induction cs with
  | nil => rfl
  | cons c cs ih =>
    rw [List.flatMap_cons, List.filter_append, List.countP_append, ih,
      filter_name_leftJoinBlock, List.filter_cons]
    by_cases h : (c.payload.name == n) = true
    · rw [if_pos h, if_pos h, countP_isSome_leftJoinBlock, List.map_cons, List.sum_cons]
    · rw [if_neg h, if_neg h]
      simp

theorem nameCount_eq_sum (db : DB) (n : String) :
    nameCount db n = ((db.companies.rows.filter (fun c => c.payload.name == n)).map
      (fun c => (db.vacancies.rows.filter
        (fun v => v.payload.company_id == c.id)).length)).sum := by
  unfold nameCount leftJoinRows
  exact nameCount_aux db n db.companies.rows

theorem groupNames_perm (db : DB) :
    (groupNames db).Perm ((db.companies.rows.map (fun c => c.payload.name)).dedup) := by
  unfold groupNames
  apply (List.perm_ext_iff_of_nodup (List.nodup_dedup _) (List.nodup_dedup _)).2
  intro n
  rw [List.mem_dedup, List.mem_dedup]
  constructor
  · intro hn
    rcases List.mem_map.1 hn with ⟨r, hr, rfl⟩
    rcases List.mem_flatMap.1 hr with ⟨c, hc, hrc⟩
    rw [fst_of_mem_leftJoinBlock hrc]
    exact List.mem_map_of_mem _ hc
  · intro hn
    rcases List.mem_map.1 hn with ⟨c, hc, rfl⟩
    rcases exists_mem_leftJoinBlock db c with ⟨o, ho⟩
    exact List.mem_map.2 ⟨(c, o), List.mem_flatMap.2 ⟨c, hc, ho⟩, rfl⟩

/-- C3 (amended): `get_companies_and_vacancies_count` returns one row per
distinct stored company NAME — the SQL `GROUP BY c.name` merges companies
sharing a name.  The row names are a permutation of the deduplicated company
names, each row's count is the total number of postings over the companies
bearing that name (`0` when there are none, so a name with zero postings is
not omitted), and the rows are ordered by count descending with ties broken
by name ascending. -/
theorem claim3_counts_per_name (db : DB) :
    ((get_companies_and_vacancies_count db).map Prod.fst).Perm
        ((db.companies.rows.map (fun c => c.payload.name)).dedup) ∧
    (∀ p ∈ get_companies_and_vacancies_count db,
       p.2 = ((db.companies.rows.filter (fun c => c.payload.name == p.1)).map
         (fun c => (db.vacancies.rows.filter
           (fun v => v.payload.company_id == c.id)).length)).sum) ∧
    List.Pairwise (fun a b => cntNameLe a b = true)
      (get_companies_and_vacancies_count db) := by
  refine ⟨?_, ?_, ?_⟩
  · unfold get_companies_and_vacancies_count
    have hperm := (perm_isort cntNameLe
      ((groupNames db).map (fun n => (n, nameCount db n)))).map Prod.fst
    rw [List.map_map] at hperm
    have hid : (Prod.fst ∘ fun n => (n, nameCount db n)) = id := funext fun n => rfl
    rw [hid, List.map_id] at hperm
    exact hperm.trans (groupNames_perm db)
  · intro p hp
    have hp2 := mem_isort.1 hp
    rcases List.mem_map.1 hp2 with ⟨n, _, rfl⟩
    exact nameCount_eq_sum db n
  · exact sorted_isort cntNameLe_total cntNameLe_trans _

/-- Two distinct stored companies that share the name `"A"`. -/
def dbDupNames : DB :=
  ⟨⟨[⟨1, 10, ⟨"A", none⟩⟩, ⟨2, 20, ⟨"A", none⟩⟩], 3⟩, ⟨[], 1⟩⟩

/-- C3 counterexample: with two stored companies that share a name, the query
returns a single row, so it does not return one row per stored company and
the two companies do not each appear exactly once. -/
theorem claim3_counterexample :
    get_companies_and_vacancies_count dbDupNames = [("A", 0)] ∧
    dbDupNames.companies.rows.length = 2 ∧
    (get_companies_and_vacancies_count dbDupNames).length
      ≠ dbDupNames.companies.rows.length := by
  refine ⟨by decide, rfl, by decide⟩

theorem claim3_witness :
    (("A", 0) : String × Nat).2 = ((dbDupNames.companies.rows.filter
        (fun c => c.payload.name == (("A", 0) : String × Nat).1)).map
      (fun c => (dbDupNames.vacancies.rows.filter
        (fun v => v.payload.company_id == c.id)).length)).sum :=
  (claim3_counts_per_name dbDupNames).2.1 ("A", 0) (by decide)

/-! ### Claim C6 -/

theorem likeLex_pct (ps : List Char) : likeLex ('%' :: ps) = .pct :: likeLex ps := by
  cases ps with
  | nil => rfl
  | cons c2 ps2 =>
    rw [likeLex, if_pos (by decide)]

theorem likeLex_plain {c : Char} (hb1 : (c == '%') = false) (hb2 : (c == '_') = false)
    (hb3 : (c == '\\') = false) (ps : List Char) :
    likeLex (c :: ps) = .lit c :: likeLex ps := by
  cases ps with
  | nil =>
    conv_lhs => rw [likeLex]
    rw [if_neg (by simp [hb1]), if_neg (by simp [hb2]), if_neg (by simp [hb3])]
  | cons c2 ps2 =>
    conv_lhs => rw [likeLex]
    rw [if_neg (by simp [hb1]), if_neg (by simp [hb2]), if_neg (by simp [hb3])]

theorem likeLex_clean_append_pct :
    ∀ kw : List Char, (∀ c ∈ kw, c ≠ '%' ∧ c ≠ '_' ∧ c ≠ '\\') →
      likeLex (kw ++ ['%']) = kw.map LikeTok.lit ++ [LikeTok.pct] := by
  intro kw
  induction kw with
  | nil =>
    intro _
    rfl
  | cons c kw ih =>
    intro hns
    obtain ⟨hc1, hc2, hc3⟩ := hns c (List.mem_cons_self c kw)
    have hb1 : (c == '%') = false := by simpa using hc1
    have hb2 : (c == '_') = false := by simpa using hc2
    have hb3 : (c == '\\') = false := by simpa using hc3
    rw [List.cons_append, likeLex_plain hb1 hb2 hb3,
      ih (fun x hx => hns x (List.mem_cons_of_mem c hx)), List.map_cons, List.cons_append]

theorem tokMatch_lit_pct :
    ∀ (kw : List Char) (s : List Char),
      (likeTokMatch (kw.map LikeTok.lit ++ [LikeTok.pct]) s = true
        ↔ (kw.map Char.toLower) <+: (s.map Char.toLower)) := by
  intro kw
  induction kw with
  | nil =>
    intro s
    simp only [List.map_nil, List.nil_append]
    constructor
    · intro _
      exact List.nil_prefix
    · intro _
      rw [likeTokMatch]
      apply List.any_eq_true.2
      exact ⟨[], (List.mem_tails _ _).2 List.nil_suffix, rfl⟩
  | cons c kw ih =>
    intro s
    cases s with
    | nil =>
      simp only [List.map_cons, List.cons_append]
      rw [likeTokMatch]
      simp [List.prefix_nil]
    | cons d s2 =>
      simp only [List.map_cons, List.cons_append]
      rw [likeTokMatch]
      simp only [Bool.and_eq_true, beq_iff_eq]
      rw [List.cons_prefix_cons]
      constructor
      · rintro ⟨h1, h2⟩
        exact ⟨h1, (ih s2).1 h2⟩
      · rintro ⟨h1, h2⟩
        exact ⟨h1, (ih s2).2 h2⟩

theorem likeMatch_pct_pct (kw : List Char)
    (hns : ∀ c ∈ kw, c ≠ '%' ∧ c ≠ '_' ∧ c ≠ '\\') (s : List Char) :
    (likeMatch ('%' :: (kw ++ ['%'])) s = true
      ↔ (kw.map Char.toLower) <:+: (s.map Char.toLower)) := by
  unfold likeMatch
  rw [likeLex_pct, likeLex_clean_append_pct kw hns, likeTokMatch, List.any_eq_true]
  constructor
  · rintro ⟨s2, hs2, hm⟩
    have hsuf := (List.mem_tails _ _).1 hs2
    have hpre := (tokMatch_lit_pct kw s2).1 hm
    exact List.infix_iff_prefix_suffix.2 ⟨s2.map Char.toLower, hpre, hsuf.map _⟩
  · intro hinf
    rcases hinf with ⟨u, v, huv⟩
    refine ⟨s.drop u.length, (List.mem_tails _ _).2 (List.drop_suffix _ _),
      (tokMatch_lit_pct kw _).2 ?_⟩
    rw [List.map_drop, ← huv, List.append_assoc, List.drop_left]
    exact List.prefix_append _ _

theorem keyword_filter_substring (db : DB) (kw : List Char)
    (hns : ∀ c ∈ kw, c ≠ '%' ∧ c ≠ '_' ∧ c ≠ '\\') :
    get_vacancies_with_keyword db kw
      = isort viewLe ((joinRows db).filter
          (fun r => decide ((kw.map Char.toLower)
            <:+: (r.vacancy_title.data.map Char.toLower)))) := by
  unfold get_vacancies_with_keyword
  apply congrArg (isort viewLe)
  apply List.filter_congr
  intro r _
  rw [Bool.eq_iff_iff, decide_eq_true_eq]
  exact likeMatch_pct_pct kw hns r.vacancy_title.data

/-- One company with the three example titles of the spec. -/
def dbKw : DB :=
  ⟨⟨[⟨1, 10, ⟨"Acme", none⟩⟩], 2⟩,
   ⟨[⟨1, 100, ⟨1, "Python Developer", none, none, none, none, none⟩⟩,
     ⟨2, 101, ⟨1, "senior PYTHON engineer", none, none, none, none, none⟩⟩,
     ⟨3, 102, ⟨1, "Java Developer", none, none, none, none, none⟩⟩], 4⟩⟩

/-- C6 (amended): for every keyword free of the SQL LIKE metacharacters
`%`, `_` and backslash, `get_vacancies_with_keyword` returns exactly the
postings whose title contains the keyword as a case-insensitive substring
(title only, ordered as `get_all_vacancies`); the empty keyword matches every
posting; and `"python"` matches the titles `"Python Developer"` and
`"senior PYTHON engineer"` but not `"Java Developer"`. -/
theorem claim6_keyword_substring :
    (∀ (db : DB) (kw : List Char), (∀ c ∈ kw, c ≠ '%' ∧ c ≠ '_' ∧ c ≠ '\\') →
       get_vacancies_with_keyword db kw
         = isort viewLe ((joinRows db).filter
             (fun r => decide ((kw.map Char.toLower)
               <:+: (r.vacancy_title.data.map Char.toLower))))) ∧
    (∀ db : DB, get_vacancies_with_keyword db [] = get_all_vacancies db) ∧
    get_vacancies_with_keyword dbKw "python".data
      = [⟨"Acme", "Python Developer", none, none, none, none⟩,
         ⟨"Acme", "senior PYTHON engineer", none, none, none, none⟩] := by
  refine ⟨keyword_filter_substring, ?_, ?_⟩
  · intro db
    rw [keyword_filter_substring db [] (by intro c hc; cases hc)]
    unfold get_all_vacancies
    congr 1
    apply List.filter_eq_self.2
    intro r _
    simp [List.nil_infix]
  · decide

/-- One posting titled `"X"`. -/
def dbUnder : DB :=
  ⟨⟨[⟨1, 10, ⟨"A", none⟩⟩], 2⟩,
   ⟨[⟨1, 100, ⟨1, "X", none, none, none, none, none⟩⟩], 2⟩⟩

/-- C6 counterexample: with keyword `"_"` the interpolated pattern `%_%`
makes the underscore a single-character wildcard, so the posting titled
`"X"` is returned although `"_"` is not a case-insensitive substring of
`"X"` — the claim as stated fails for keywords containing LIKE
metacharacters. -/
theorem claim6_counterexample :
    get_vacancies_with_keyword dbUnder "_".data
      = [⟨"A", "X", none, none, none, none⟩] ∧
    ¬ (("_".data.map Char.toLower) <:+: ("X".data.map Char.toLower)) := by
  constructor
  · decide
  · decide

theorem claim6_witness :
    get_vacancies_with_keyword dbKw "python".data
      = isort viewLe ((joinRows dbKw).filter
          (fun r => decide (("python".data.map Char.toLower)
            <:+: (r.vacancy_title.data.map Char.toLower)))) :=
  claim6_keyword_substring.1 dbKw "python".data (by decide)

end HH
